import Mathlib

/-!
PS2Recomp: the portable 128-bit SIMD layer (`ps2xRuntime/include/ps2_simd.h`)

A shallow embedding of the fallback branch of `ps2_simd.h` (the branch compiled on targets
that are not x86), together with the documented reference semantics of the x86 intrinsics
used by the hardware branch.

* A `simd128i_t` is its object representation: exactly 16 bytes.  The union members
  (`data`, `m128i_u32`, `m128i_i32`, `m128i_u64`, `m128i_i64`) are views of those bytes;
  a lane access reads or writes the lane's bytes in the byte order of the target.
* The byte order of the target is a parameter (`Endian`), because the fallback is compiled
  for whatever architecture is not x86.
* Machine integers are `Nat` (unsigned, reduced modulo `2 ^ w`) and `Int` (signed, with an
  explicit range), conversions are explicit.
* Memory is a finite list of bytes, addresses are indices; an access that leaves the
  memory is undefined behaviour in the source and `none` here.
-/

namespace PS2Recomp

/-! ## Bytes, byte order, machine integers -/

/-- One byte of storage. -/
abbrev Byte := Fin 256

/-- Byte order of the target the header is compiled for. -/
inductive Endian where
  | little
  | big
deriving DecidableEq, Repr

/-- The `n` low-order bytes of `x`, least significant byte first. -/
def leBytes : Nat → Nat → List Byte
  | 0, _ => []
  | n + 1, x => ⟨x % 256, Nat.mod_lt x (by decide)⟩ :: leBytes n (x / 256)

/-- The number whose least-significant-first bytes are `bs`. -/
def leVal : List Byte → Nat
  | [] => 0
  | b :: bs => b.val + 256 * leVal bs

/-- Object representation of an `n`-byte unsigned integer on a target of byte order `e`. -/
def encode (e : Endian) (n x : Nat) : List Byte :=
  match e with
  | Endian.little => leBytes n x
  | Endian.big => (leBytes n x).reverse

/-- Value of an unsigned integer read from its object representation. -/
def decode (e : Endian) (bs : List Byte) : Nat :=
  match e with
  | Endian.little => leVal bs
  | Endian.big => leVal bs.reverse

/-- Conversion to `uint32_t` (`static_cast<uint32_t>`, and the implicit conversion of an
`int32_t` stored through a `uint32_t` lvalue): reduction modulo `2 ^ 32`. -/
def toU32 (x : Int) : Nat := (x % 2 ^ 32).toNat

/-- Conversion to `uint64_t` (`static_cast<uint64_t>`): reduction modulo `2 ^ 64`. -/
def toU64 (x : Int) : Nat := (x % 2 ^ 64).toNat

/-- Reading a 32-bit pattern as `int32_t` (two's complement). -/
def toI32 (u : Nat) : Int := if u < 2 ^ 31 then (u : Int) else (u : Int) - 2 ^ 32

/-- Reading a 64-bit pattern as `int64_t` (two's complement). -/
def toI64 (u : Nat) : Int := if u < 2 ^ 63 then (u : Int) else (u : Int) - 2 ^ 64

/-- The range of `int32_t`. -/
def isInt32 (x : Int) : Prop := -2 ^ 31 ≤ x ∧ x < 2 ^ 31

/-- The range of `int64_t`. -/
def isInt64 (x : Int) : Prop := -2 ^ 63 ≤ x ∧ x < 2 ^ 63

instance (x : Int) : Decidable (isInt32 x) := by unfold isInt32; infer_instance

instance (x : Int) : Decidable (isInt64 x) := by unfold isInt64; infer_instance

/-! ## Raw byte copies -/

/-- The `n` bytes of `src` starting at offset `off`. -/
def peek (src : List Byte) (off n : Nat) : List Byte := (src.drop off).take n

/-- Overwrite the bytes of `dst` starting at offset `off` with `src`. -/
def poke (dst : List Byte) (off : Nat) (src : List Byte) : List Byte :=
  dst.take off ++ src ++ dst.drop (off + src.length)

/-- The effect of `memcpy(dst + doff, src + soff, n)` on the bytes of the destination object. -/
def memcpy (dst : List Byte) (doff : Nat) (src : List Byte) (soff n : Nat) : List Byte :=
  poke dst doff (peek src soff n)

/-! ## The fallback value types -/

/-- The fallback `struct alignas(16) simd128i_t`: 16 bytes of storage shared by the union
members `data`, `m128i_u32`, `m128i_i32`, `m128i_u64` and `m128i_i64`. -/
structure simd128i_t where
  bytes : List Byte
  size_eq : bytes.length = 16
deriving DecidableEq

/-- Read the `i`-th lane of width `w` bytes as an unsigned integer. -/
def simd128i_t.lane (e : Endian) (w : Nat) (v : simd128i_t) (i : Nat) : Nat :=
  decode e (peek v.bytes (w * i) w)

/-- Store `x` into the `i`-th lane of width `w` bytes. -/
def simd128i_t.setLane (e : Endian) (w : Nat) (v : simd128i_t) (i : Nat)
    (h : w * i + w ≤ 16) (x : Nat) : simd128i_t :=
  ⟨poke v.bytes (w * i) (encode e w x), by
    have hl : ∀ n y, (leBytes n y).length = n := by
      intro n
      induction n with
      | zero => intro y; rfl
      | succ k ih => intro y; simp [leBytes, ih]
    have he : (encode e w x).length = w := by cases e <;> simp [encode, hl]
    have hv := v.size_eq
    simp only [poke, List.length_append, List.length_take, List.length_drop, he]
    omega⟩

/-- Union member `uint64_t data[2]`. -/
def simd128i_t.data (e : Endian) (v : simd128i_t) (i : Nat) : Nat := v.lane e 8 i

/-- Union member `uint32_t m128i_u32[4]`. -/
def simd128i_t.m128i_u32 (e : Endian) (v : simd128i_t) (i : Nat) : Nat := v.lane e 4 i

/-- Union member `int32_t m128i_i32[4]`. -/
def simd128i_t.m128i_i32 (e : Endian) (v : simd128i_t) (i : Nat) : Int :=
  toI32 (v.lane e 4 i)

/-- Union member `uint64_t m128i_u64[2]`. -/
def simd128i_t.m128i_u64 (e : Endian) (v : simd128i_t) (i : Nat) : Nat := v.lane e 8 i

/-- Union member `int64_t m128i_i64[2]`. -/
def simd128i_t.m128i_i64 (e : Endian) (v : simd128i_t) (i : Nat) : Int :=
  toI64 (v.lane e 8 i)

/-- Constructor `simd128i_t(uint64_t lo, uint64_t hi) : data{lo, hi}`. -/
def simd128i_t.ctor (e : Endian) (lo hi : Nat) : simd128i_t :=
  ⟨encode e 8 lo ++ encode e 8 hi, by cases e <;> rfl⟩

/-- Default constructor `simd128i_t() : data{0, 0}`. -/
def simd128i_t.ctor0 (e : Endian) : simd128i_t :=
  ⟨encode e 8 0 ++ encode e 8 0, by cases e <;> rfl⟩

/-- Bit pattern of the `float` literal `0.0f` (IEEE-754 binary32 positive zero). -/
def zero_f : Nat := 0

/-- The 32-bit pattern of an IEEE-754 binary32 datum: sign bit 31, biased exponent in bits
30..23, fraction in bits 22..0. -/
def f32_bits (sign : Bool) (exponent fraction : Nat) : Nat :=
  (if sign then 2 ^ 31 else 0) + (exponent % 2 ^ 8) * 2 ^ 23 + fraction % 2 ^ 23

/-- The fallback `struct alignas(16) simd128f_t`: `float data[4]`, each lane held as its
32-bit pattern. -/
structure simd128f_t where
  bytes : List Byte
  size_eq : bytes.length = 16
deriving DecidableEq

/-- Constructor `simd128f_t(float x, float y, float z, float w) : data{x, y, z, w}`, on the
bit patterns of the four floats. -/
def simd128f_t.ctor (e : Endian) (x y z w : Nat) : simd128f_t :=
  ⟨encode e 4 x ++ encode e 4 y ++ encode e 4 z ++ encode e 4 w, by cases e <;> rfl⟩

/-- Default constructor `simd128f_t() : data{0.0f, 0.0f, 0.0f, 0.0f}`. -/
def simd128f_t.ctor0 (e : Endian) : simd128f_t :=
  ⟨encode e 4 zero_f ++ encode e 4 zero_f ++ encode e 4 zero_f ++ encode e 4 zero_f,
    by cases e <;> rfl⟩

/-- Member `float data[4]`, as the bit pattern of lane `i`. -/
def simd128f_t.data (e : Endian) (v : simd128f_t) (i : Nat) : Nat :=
  decode e (peek v.bytes (4 * i) 4)

/-! ## Memory -/

/-- A memory image; an address is an index into it. -/
abbrev Memory := List Byte

namespace simd

/-- Fallback branch of `simd::load_128i`: `simd128i_t result; memcpy(&result, ptr, 16);`. -/
def load_128i (e : Endian) (mem : Memory) (ptr : Nat) : Option simd128i_t :=
  if h : ptr + 16 ≤ mem.length then
    let result := simd128i_t.ctor0 e
    some ⟨memcpy result.bytes 0 mem ptr 16, by
      have hr := result.size_eq
      simp only [memcpy, poke, peek, List.length_append, List.length_take, List.length_drop]
      omega⟩
  else none

/-- Fallback branch of `simd::store_128i`: `memcpy(ptr, &value, 16);`. -/
def store_128i (mem : Memory) (ptr : Nat) (value : simd128i_t) : Option Memory :=
  if ptr + 16 ≤ mem.length then some (memcpy mem ptr value.bytes 0 16) else none

/-- Fallback branch of `simd::setzero_128i`: `return simd128i_t{0, 0};`. -/
def setzero_128i (e : Endian) : simd128i_t := simd128i_t.ctor e 0 0

/-- Fallback branch of `simd::set1_epi32`. -/
def set1_epi32 (e : Endian) (value : Int) : simd128i_t :=
  let v := toU32 value
  let doubled := ((v <<< 32) % 2 ^ 64) ||| v
  simd128i_t.ctor e doubled doubled

/-- Fallback branch of `simd::setzero_ps`: `return simd128f_t{0.0f, 0.0f, 0.0f, 0.0f};`. -/
def setzero_ps (e : Endian) : simd128f_t := simd128f_t.ctor e zero_f zero_f zero_f zero_f

/-- Fallback branch of `simd::extract_epi64`: `return value.data[index & 1];`. -/
def extract_epi64 (e : Endian) (value : simd128i_t) (index : Int) : Nat :=
  value.data e (Int.land index 1).toNat

/-- Fallback branch of `simd::set_epi32`: four `uint32_t` stores into a default-constructed
value, `data[0] = x; data[1] = y; data[2] = z; data[3] = w;`. -/
def set_epi32 (e : Endian) (w z y x : Int) : simd128i_t :=
  let result := simd128i_t.ctor0 e
  let r0 := result.setLane e 4 0 (by decide) (toU32 x)
  let r1 := r0.setLane e 4 1 (by decide) (toU32 y)
  let r2 := r1.setLane e 4 2 (by decide) (toU32 z)
  r2.setLane e 4 3 (by decide) (toU32 w)

/-- Fallback branch of `simd::set_epi64x`: `result.data[0] = static_cast<uint64_t>(lo);
result.data[1] = static_cast<uint64_t>(hi);` on a default-constructed value. -/
def set_epi64x (e : Endian) (hi lo : Int) : simd128i_t :=
  let result := simd128i_t.ctor0 e
  let r0 := result.setLane e 8 0 (by decide) (toU64 lo)
  r0.setLane e 8 1 (by decide) (toU64 hi)

/-- The argument of `set_epi32(w, z, y, x)` that the body assigns to `data[i]`. -/
def set_epi32_arg (w z y x : Int) (i : Nat) : Int :=
  match i with
  | 0 => x
  | 1 => y
  | 2 => z
  | _ => w

/-- The call `load_128i(ptr)` as a step on memory: the value returned together with the
memory the call leaves behind.  The pointer is `const void *` and the only write of the body,
`memcpy(&result, ptr, 16)`, goes to the local `result`. -/
def load_128i_step (e : Endian) (mem : Memory) (ptr : Nat) : Option (simd128i_t × Memory) :=
  (load_128i e mem ptr).map (fun result => (result, mem))

end simd

/-! ## Reference semantics of the x86 intrinsics of the hardware branch

These definitions follow the operation pseudocode of the Intel Intrinsics Guide, not the
fallback code.  An `__m128i` or `__m128` register is the number `dst[127:0]`; in x86 memory
it occupies 16 bytes, least significant byte at the lowest address. -/

namespace x86

/-- The 16 bytes a 128-bit register value occupies in x86 memory. -/
def image (a : Nat) : List Byte := leBytes 16 a

/-- Bits `a[31:0]` of a 32-bit integer argument. -/
def bits32 (a : Int) : Nat := (a % 4294967296).toNat

/-- Bits `a[63:0]` of a 64-bit integer argument. -/
def bits64 (a : Int) : Nat := (a % 18446744073709551616).toNat

/-- Intrinsic `_mm_loadu_si128`: `dst[127:0] := MEM[mem_addr+127:mem_addr]`. -/
def _mm_loadu_si128 (mem : Memory) (mem_addr : Nat) : Option Nat :=
  if mem_addr + 16 ≤ mem.length then some (leVal ((mem.drop mem_addr).take 16)) else none

/-- Intrinsic `_mm_storeu_si128`: `MEM[mem_addr+127:mem_addr] := a[127:0]`. -/
def _mm_storeu_si128 (mem : Memory) (mem_addr : Nat) (a : Nat) : Option Memory :=
  if mem_addr + 16 ≤ mem.length then
    some (mem.take mem_addr ++ image a ++ mem.drop (mem_addr + 16))
  else none

/-- Intrinsic `_mm_setzero_si128`: `dst[MAX:0] := 0`. -/
def _mm_setzero_si128 : Nat := 0

/-- Intrinsic `_mm_set1_epi32`: `FOR j := 0 to 3: i := j*32; dst[i+31:i] := a[31:0]`. -/
def _mm_set1_epi32 (a : Int) : Nat :=
  (List.range 4).foldl (fun dst j => dst + bits32 a * 2 ^ (j * 32)) 0

/-- Intrinsic `_mm_setzero_ps`: `dst[MAX:0] := 0`. -/
def _mm_setzero_ps : Nat := 0

/-- Intrinsic `_mm_extract_epi64`: `dst[63:0] := (a[127:0] >> (imm8[0] * 64))[63:0]`. -/
def _mm_extract_epi64 (a : Nat) (imm8 : Int) : Nat :=
  (a / 2 ^ ((imm8 % 2).toNat * 64)) % 2 ^ 64

/-- Intrinsic `_mm_set_epi32`: `dst[31:0] := e0; dst[63:32] := e1; dst[95:64] := e2;
dst[127:96] := e3`. -/
def _mm_set_epi32 (e3 e2 e1 e0 : Int) : Nat :=
  bits32 e0 + bits32 e1 * 2 ^ 32 + bits32 e2 * 2 ^ 64 + bits32 e3 * 2 ^ 96

/-- Intrinsic `_mm_set_epi64x`: `dst[63:0] := e0; dst[127:64] := e1`. -/
def _mm_set_epi64x (e1 e0 : Int) : Nat := bits64 e0 + bits64 e1 * 2 ^ 64

end x86

/-! ## Basic facts about byte lists -/

theorem length_leBytes (n x : Nat) : (leBytes n x).length = n := by
  induction n generalizing x with
  | zero => rfl
  | succ k ih => simp [leBytes, ih]

theorem length_encode (e : Endian) (n x : Nat) : (encode e n x).length = n := by
  cases e <;> simp [encode, length_leBytes]

theorem length_peek (src : List Byte) (off n : Nat) (h : off + n ≤ src.length) :
    (peek src off n).length = n := by
  simp only [peek, List.length_take, List.length_drop]
  omega

theorem length_poke (dst : List Byte) (off : Nat) (src : List Byte)
    (h : off + src.length ≤ dst.length) : (poke dst off src).length = dst.length := by
  simp only [poke, List.length_append, List.length_take, List.length_drop]
  omega

theorem length_memcpy (dst : List Byte) (doff : Nat) (src : List Byte) (soff n : Nat)
    (hd : doff + n ≤ dst.length) (hs : soff + n ≤ src.length) :
    (memcpy dst doff src soff n).length = dst.length := by
  unfold memcpy
  apply length_poke
  rw [length_peek src soff n hs]
  exact hd

theorem simd128i_ext {a b : simd128i_t} (h : a.bytes = b.bytes) : a = b := by
  cases a; cases b; cases h; rfl

theorem simd128f_ext {a b : simd128f_t} (h : a.bytes = b.bytes) : a = b := by
  cases a; cases b; cases h; rfl

theorem leVal_leBytes (n x : Nat) : leVal (leBytes n x) = x % 256 ^ n := by
  induction n generalizing x with
  | zero => simp [leBytes, leVal, Nat.mod_one]
  | succ k ih =>
    simp only [leBytes, leVal, ih]
    rw [Nat.pow_succ, Nat.mul_comm (256 ^ k) 256, Nat.mod_mul]

theorem leBytes_leVal (bs : List Byte) : leBytes bs.length (leVal bs) = bs := by
  induction bs with
  | nil => rfl
  | cons b t ih =>
    have hb := b.isLt
    have h1 : (b.val + 256 * leVal t) % 256 = b.val := by omega
    have h2 : (b.val + 256 * leVal t) / 256 = leVal t := by omega
    simp only [List.length_cons, leBytes, leVal, h1, h2, ih]

theorem leVal_lt (bs : List Byte) : leVal bs < 256 ^ bs.length := by
  rw [← leBytes_leVal bs, leVal_leBytes, length_leBytes]
  exact Nat.mod_lt _ (Nat.pos_pow_of_pos _ (by decide))

theorem decode_encode (e : Endian) (n x : Nat) : decode e (encode e n x) = x % 256 ^ n := by
  cases e <;> simp [decode, encode, leVal_leBytes]

theorem encode_decode (e : Endian) (bs : List Byte) : encode e bs.length (decode e bs) = bs := by
  cases e
  · simp [decode, encode, leBytes_leVal]
  · have h := leBytes_leVal bs.reverse
    rw [List.length_reverse] at h
    simp [decode, encode, h]

theorem leBytes_add (m n x : Nat) :
    leBytes (m + n) x = leBytes m x ++ leBytes n (x / 256 ^ m) := by
  induction m generalizing x with
  | zero => simp [leBytes]
  | succ k ih =>
    have h : k + 1 + n = (k + n) + 1 := by omega
    rw [h]
    simp only [leBytes, ih, List.cons_append, Nat.div_div_eq_div_mul, Nat.pow_succ,
      Nat.mul_comm (256 ^ k) 256]

theorem leVal_append (a b : List Byte) :
    leVal (a ++ b) = leVal a + 256 ^ a.length * leVal b := by
  induction a with
  | nil => simp [leVal]
  | cons c t ih =>
    rw [List.cons_append]
    show c.val + 256 * leVal (t ++ b) = c.val + 256 * leVal t + 256 ^ (t.length + 1) * leVal b
    rw [ih, Nat.pow_succ]
    ring

theorem getElem?_poke (dst : List Byte) (off : Nat) (src : List Byte) (k : Nat)
    (h : off + src.length ≤ dst.length) :
    (poke dst off src)[k]? =
      if k < off then dst[k]? else if k < off + src.length then src[k - off]? else dst[k]? := by
  unfold poke
  by_cases h1 : k < off
  · rw [if_pos h1, List.append_assoc, List.getElem?_append_left (by simp; omega),
      List.getElem?_take_of_lt h1]
  · rw [if_neg h1]
    have hlt : (List.take off dst).length = off := by simp; omega
    by_cases h2 : k < off + src.length
    · rw [if_pos h2, List.append_assoc, List.getElem?_append_right (by omega), hlt,
        List.getElem?_append_left (by omega)]
    · rw [if_neg h2, List.getElem?_append_right (by simp; omega), List.getElem?_drop]
      congr 1
      simp
      omega

theorem getElem?_peek (src : List Byte) (off n k : Nat) :
    (peek src off n)[k]? = if k < n then src[off + k]? else none := by
  unfold peek
  rw [List.getElem?_take, List.getElem?_drop]

theorem peek_poke_same (dst : List Byte) (off : Nat) (src : List Byte)
    (h : off + src.length ≤ dst.length) : peek (poke dst off src) off src.length = src := by
  apply List.ext_getElem?
  intro k
  rw [getElem?_peek, getElem?_poke _ _ _ _ h]
  by_cases hk : k < src.length
  · rw [if_pos hk, if_neg (by omega), if_pos (by omega)]
    congr 1
    omega
  · rw [if_neg hk, List.getElem?_eq_none (by omega)]

theorem peek_poke_disjoint (dst : List Byte) (off : Nat) (src : List Byte) (q n : Nat)
    (h : off + src.length ≤ dst.length) (hd : q + n ≤ off ∨ off + src.length ≤ q) :
    peek (poke dst off src) q n = peek dst q n := by
  apply List.ext_getElem?
  intro k
  rw [getElem?_peek, getElem?_peek, getElem?_poke _ _ _ _ h]
  by_cases hk : k < n
  · rw [if_pos hk, if_pos hk]
    rcases hd with hd | hd
    · rw [if_pos (by omega)]
    · rw [if_neg (by omega), if_neg (by omega)]
  · rw [if_neg hk, if_neg hk]

theorem peek_zero_full (l : List Byte) (n : Nat) (h : l.length = n) : peek l 0 n = l := by
  subst h
  simp [peek]

theorem poke_zero_full (dst src : List Byte) (h : src.length = dst.length) :
    poke dst 0 src = src := by
  simp [poke, h]

theorem peek_peek (l : List Byte) (a n b m : Nat) (h : b + m ≤ n) :
    peek (peek l a n) b m = peek l (a + b) m := by
  apply List.ext_getElem?
  intro k
  simp only [getElem?_peek]
  by_cases hk : k < m
  · rw [if_pos hk, if_pos hk, if_pos (by omega), Nat.add_assoc]
  · rw [if_neg hk, if_neg hk]

/-! ## Facts about the operations -/

theorem load_128i_bytes (e : Endian) (mem : Memory) (ptr : Nat) (h : ptr + 16 ≤ mem.length) :
    ∃ v, simd.load_128i e mem ptr = some v ∧ v.bytes = peek mem ptr 16 := by
  unfold simd.load_128i
  rw [dif_pos h]
  refine ⟨_, rfl, ?_⟩
  show memcpy (simd128i_t.ctor0 e).bytes 0 mem ptr 16 = peek mem ptr 16
  unfold memcpy
  apply poke_zero_full
  rw [length_peek mem ptr 16 h, (simd128i_t.ctor0 e).size_eq]

theorem store_128i_eq (mem : Memory) (ptr : Nat) (value : simd128i_t)
    (h : ptr + 16 ≤ mem.length) :
    simd.store_128i mem ptr value = some (poke mem ptr value.bytes) := by
  unfold simd.store_128i
  rw [if_pos h]
  unfold memcpy
  rw [peek_zero_full value.bytes 16 value.size_eq]

theorem load_128i_none (e : Endian) (mem : Memory) (ptr : Nat) (h : ¬ ptr + 16 ≤ mem.length) :
    simd.load_128i e mem ptr = none := by
  unfold simd.load_128i
  rw [dif_neg h]

theorem store_128i_none (mem : Memory) (ptr : Nat) (value : simd128i_t)
    (h : ¬ ptr + 16 ≤ mem.length) : simd.store_128i mem ptr value = none := by
  unfold simd.store_128i
  rw [if_neg h]

theorem nat_ldiff_mask (k m : Nat) : Nat.ldiff (2 ^ k - 1) m = 2 ^ k - 1 - m % 2 ^ k := by
  apply Nat.eq_of_testBit_eq
  intro i
  have hlt : m % 2 ^ k < 2 ^ k := Nat.mod_lt _ (Nat.pos_pow_of_pos _ (by decide))
  have h : 2 ^ k - 1 - m % 2 ^ k = 2 ^ k - (m % 2 ^ k + 1) := by omega
  rw [Nat.testBit_ldiff, Nat.testBit_two_pow_sub_one, h, Nat.testBit_two_pow_sub_succ hlt,
    Nat.testBit_mod_two_pow]
  by_cases hi : i < k <;> simp [hi]

theorem int_land_mask (x : Int) (k : Nat) :
    Int.land x ((2 ^ k - 1 : Nat) : Int) = x % 2 ^ k := by
  have hpos : 0 < 2 ^ k := Nat.pos_pow_of_pos _ (by decide)
  cases x with
  | ofNat n =>
    show ((n &&& (2 ^ k - 1) : Nat) : Int) = (n : Int) % 2 ^ k
    rw [Nat.and_pow_two_sub_one_eq_mod]
    push_cast
    rfl
  | negSucc m =>
    show ((Nat.ldiff (2 ^ k - 1) m : Nat) : Int) = Int.negSucc m % 2 ^ k
    rw [nat_ldiff_mask]
    have hlt : m % 2 ^ k < 2 ^ k := Nat.mod_lt _ hpos
    have h2 : ((2 : Int) ^ k) = ((2 ^ k : Nat) : Int) := by push_cast; rfl
    rw [h2, Int.emod_negSucc]
    simp only [Int.natAbs_ofNat]
    rw [Int.subNatNat_eq_coe]
    generalize m % 2 ^ k = b at hlt ⊢
    generalize 2 ^ k = a at hlt hpos ⊢
    omega

theorem int_land_one (x : Int) : Int.land x 1 = x % 2 := by
  have h := int_land_mask x 1
  simpa using h

theorem int_land_255 (x : Int) : Int.land x 255 = x % 256 := by
  have h := int_land_mask x 8
  simpa using h

theorem leBytes_mod (n x : Nat) : leBytes n (x % 256 ^ n) = leBytes n x := by
  have h := leBytes_leVal (leBytes n x)
  rw [length_leBytes, leVal_leBytes] at h
  exact h

theorem leBytes_split (m n lo hi : Nat) (h : lo < 256 ^ m) :
    leBytes (m + n) (lo + 256 ^ m * hi) = leBytes m lo ++ leBytes n hi := by
  have hpos : 0 < 256 ^ m := Nat.pos_pow_of_pos _ (by decide)
  rw [leBytes_add, ← leBytes_mod m (lo + 256 ^ m * hi), Nat.add_mul_mod_self_left,
    Nat.mod_eq_of_lt h, Nat.add_mul_div_left _ _ hpos, Nat.div_eq_of_lt h, Nat.zero_add]

theorem leVal_peek (l : List Byte) (off n : Nat) (h : off + n ≤ l.length) :
    leVal (peek l off n) = leVal l / 256 ^ off % 256 ^ n := by
  have hpos : 0 < 256 ^ off := Nat.pos_pow_of_pos _ (by decide)
  have h1 : l = l.take off ++ (peek l off n ++ (l.drop off).drop n) := by
    unfold peek
    rw [List.take_append_drop, List.take_append_drop]
  have hT : (l.take off).length = off := by simp; omega
  have hTlt := leVal_lt (l.take off)
  rw [hT] at hTlt
  have hP := leVal_lt (peek l off n)
  rw [length_peek l off n h] at hP
  have h2 : leVal l = leVal (l.take off) +
      256 ^ off * (leVal (peek l off n) + 256 ^ n * leVal ((l.drop off).drop n)) := by
    conv_lhs => rw [h1]
    rw [leVal_append, leVal_append, hT, length_peek l off n h]
  rw [h2, Nat.add_mul_div_left _ _ hpos, Nat.div_eq_of_lt hTlt, Nat.zero_add,
    Nat.add_mul_mod_self_left, Nat.mod_eq_of_lt hP]

theorem toU32_lt (x : Int) : toU32 x < 2 ^ 32 := by
  unfold toU32
  omega

theorem toU64_lt (x : Int) : toU64 x < 2 ^ 64 := by
  unfold toU64
  omega

theorem toI32_toU32 (x : Int) (h : isInt32 x) : toI32 (toU32 x) = x := by
  unfold isInt32 at h
  unfold toI32 toU32
  split <;> omega

theorem toI64_toU64 (x : Int) (h : isInt64 x) : toI64 (toU64 x) = x := by
  unfold isInt64 at h
  unfold toI64 toU64
  split <;> omega

theorem bits32_eq (x : Int) : x86.bits32 x = toU32 x := by
  unfold x86.bits32 toU32
  norm_num

theorem bits64_eq (x : Int) : x86.bits64 x = toU64 x := by
  unfold x86.bits64 toU64
  norm_num

theorem doubled_eq (u : Nat) (h : u < 2 ^ 32) :
    ((u <<< 32) % 2 ^ 64) ||| u = u + 2 ^ 32 * u := by
  rw [Nat.shiftLeft_eq, Nat.mod_eq_of_lt (by omega), Nat.mul_comm u (2 ^ 32),
    ← Nat.mul_add_lt_is_or h, Nat.add_comm]

theorem list_len4 (l : List Byte) (h : l.length = 4) : ∃ a b c d, l = [a, b, c, d] := by
  match l, h with
  | [a, b, c, d], _ => exact ⟨a, b, c, d, rfl⟩

theorem list_len8 (l : List Byte) (h : l.length = 8) :
    ∃ a b c d a1 b1 c1 d1, l = [a, b, c, d, a1, b1, c1, d1] := by
  match l, h with
  | [a, b, c, d, a1, b1, c1, d1], _ => exact ⟨a, b, c, d, a1, b1, c1, d1, rfl⟩

theorem ctor0_bytes (e : Endian) : (simd128i_t.ctor0 e).bytes = List.replicate 16 0 := by
  cases e <;> rfl

theorem ctor_bytes (e : Endian) (lo hi : Nat) :
    (simd128i_t.ctor e lo hi).bytes = encode e 8 lo ++ encode e 8 hi := rfl

theorem set_epi32_bytes (e : Endian) (w z y x : Int) :
    (simd.set_epi32 e w z y x).bytes =
      encode e 4 (toU32 x) ++ encode e 4 (toU32 y) ++ encode e 4 (toU32 z)
        ++ encode e 4 (toU32 w) := by
  obtain ⟨x0, x1, x2, x3, hx⟩ := list_len4 _ (length_encode e 4 (toU32 x))
  obtain ⟨y0, y1, y2, y3, hy⟩ := list_len4 _ (length_encode e 4 (toU32 y))
  obtain ⟨z0, z1, z2, z3, hz⟩ := list_len4 _ (length_encode e 4 (toU32 z))
  obtain ⟨w0, w1, w2, w3, hw⟩ := list_len4 _ (length_encode e 4 (toU32 w))
  simp only [simd.set_epi32, simd128i_t.setLane, ctor0_bytes, hx, hy, hz, hw]
  rfl

theorem set_epi64x_bytes (e : Endian) (hi lo : Int) :
    (simd.set_epi64x e hi lo).bytes = encode e 8 (toU64 lo) ++ encode e 8 (toU64 hi) := by
  obtain ⟨a0, a1, a2, a3, a4, a5, a6, a7, ha⟩ := list_len8 _ (length_encode e 8 (toU64 lo))
  obtain ⟨b0, b1, b2, b3, b4, b5, b6, b7, hb⟩ := list_len8 _ (length_encode e 8 (toU64 hi))
  simp only [simd.set_epi64x, simd128i_t.setLane, ctor0_bytes, ha, hb]
  rfl

theorem encode_halves (e : Endian) (lo hi : Nat) (h : lo < 2 ^ 32) :
    encode e 8 (lo + 2 ^ 32 * hi) =
      match e with
      | Endian.little => encode e 4 lo ++ encode e 4 hi
      | Endian.big => encode e 4 hi ++ encode e 4 lo := by
  have hp : (256 : Nat) ^ 4 = 2 ^ 32 := by norm_num
  have hs : leBytes 8 (lo + 2 ^ 32 * hi) = leBytes 4 lo ++ leBytes 4 hi := by
    have h0 := leBytes_split 4 4 lo hi (by rw [hp]; exact h)
    rw [hp] at h0
    exact h0
  cases e
  · simp only [encode]
    exact hs
  · simp only [encode]
    rw [hs, List.reverse_append]

theorem set1_epi32_bytes (e : Endian) (value : Int) :
    (simd.set1_epi32 e value).bytes =
      encode e 4 (toU32 value) ++ encode e 4 (toU32 value) ++ encode e 4 (toU32 value)
        ++ encode e 4 (toU32 value) := by
  have hd := doubled_eq (toU32 value) (toU32_lt value)
  have hh := encode_halves e (toU32 value) (toU32 value) (toU32_lt value)
  show encode e 8 _ ++ encode e 8 _ = _
  simp only [hd]
  cases e <;> simp only [hh, List.append_assoc]

theorem leBytes16_lanes (a b c d : Nat) (ha : a < 2 ^ 32) (hb : b < 2 ^ 32) (hc : c < 2 ^ 32) :
    leBytes 16 (a + b * 2 ^ 32 + c * 2 ^ 64 + d * 2 ^ 96) =
      leBytes 4 a ++ leBytes 4 b ++ leBytes 4 c ++ leBytes 4 d := by
  have hp : (256 : Nat) ^ 4 = 2 ^ 32 := by norm_num
  have hv : a + b * 2 ^ 32 + c * 2 ^ 64 + d * 2 ^ 96 =
      a + 256 ^ 4 * (b + 256 ^ 4 * (c + 256 ^ 4 * d)) := by
    rw [hp]
    ring
  rw [hv]
  show leBytes (4 + (4 + (4 + 4))) _ = _
  rw [leBytes_split 4 _ a _ (by rw [hp]; exact ha), leBytes_split 4 _ b _ (by rw [hp]; exact hb),
    leBytes_split 4 _ c _ (by rw [hp]; exact hc)]
  simp only [List.append_assoc]

theorem leBytes16_halves (lo hi : Nat) (h : lo < 2 ^ 64) :
    leBytes 16 (lo + hi * 2 ^ 64) = leBytes 8 lo ++ leBytes 8 hi := by
  have hp : (256 : Nat) ^ 8 = 2 ^ 64 := by norm_num
  have hs := leBytes_split 8 8 lo hi (by rw [hp]; exact h)
  rw [hp, Nat.mul_comm] at hs
  exact hs

theorem land_one_cases (index : Int) :
    (Int.land index 1).toNat = 0 ∧ index % 2 = 0 ∨ (Int.land index 1).toNat = 1 ∧ index % 2 = 1 := by
  rw [int_land_one]
  omega

theorem extract_epi64_little (v : simd128i_t) (index : Int) :
    simd.extract_epi64 Endian.little v index =
      leVal v.bytes / 2 ^ ((index % 2).toNat * 64) % 2 ^ 64 := by
  have hp : (256 : Nat) ^ 8 = 2 ^ 64 := by norm_num
  unfold simd.extract_epi64 simd128i_t.data simd128i_t.lane
  show leVal (peek v.bytes (8 * (Int.land index 1).toNat) 8) = _
  rcases land_one_cases index with ⟨h1, h2⟩ | ⟨h1, h2⟩
  · rw [h1, h2, leVal_peek _ _ _ (by rw [v.size_eq]; omega), hp]
    rfl
  · rw [h1, h2, leVal_peek _ _ _ (by rw [v.size_eq]), hp]
    rfl

theorem peek_parts4 (a b c d : List Byte) (ha : a.length = 4) (hb : b.length = 4)
    (hc : c.length = 4) (hd : d.length = 4) :
    peek (a ++ b ++ c ++ d) (4 * 0) 4 = a ∧ peek (a ++ b ++ c ++ d) (4 * 1) 4 = b ∧
      peek (a ++ b ++ c ++ d) (4 * 2) 4 = c ∧ peek (a ++ b ++ c ++ d) (4 * 3) 4 = d := by
  obtain ⟨a0, a1, a2, a3, rfl⟩ := list_len4 a ha
  obtain ⟨b0, b1, b2, b3, rfl⟩ := list_len4 b hb
  obtain ⟨c0, c1, c2, c3, rfl⟩ := list_len4 c hc
  obtain ⟨d0, d1, d2, d3, rfl⟩ := list_len4 d hd
  exact ⟨rfl, rfl, rfl, rfl⟩

theorem peek_parts2 (a b : List Byte) (ha : a.length = 8) (hb : b.length = 8) :
    peek (a ++ b) (8 * 0) 8 = a ∧ peek (a ++ b) (8 * 1) 8 = b := by
  obtain ⟨a0, a1, a2, a3, a4, a5, a6, a7, rfl⟩ := list_len8 a ha
  obtain ⟨b0, b1, b2, b3, b4, b5, b6, b7, rfl⟩ := list_len8 b hb
  exact ⟨rfl, rfl⟩

theorem decode_encode32 (e : Endian) (u : Nat) (h : u < 2 ^ 32) :
    decode e (encode e 4 u) = u := by
  rw [decode_encode]
  exact Nat.mod_eq_of_lt (by norm_num; omega)

theorem decode_encode64 (e : Endian) (u : Nat) (h : u < 2 ^ 64) :
    decode e (encode e 8 u) = u := by
  rw [decode_encode]
  exact Nat.mod_eq_of_lt (by norm_num; omega)

theorem lane4_of_parts (e : Endian) (v : simd128i_t) (a0 a1 a2 a3 : Nat)
    (h : v.bytes = encode e 4 a0 ++ encode e 4 a1 ++ encode e 4 a2 ++ encode e 4 a3)
    (h0 : a0 < 2 ^ 32) (h1 : a1 < 2 ^ 32) (h2 : a2 < 2 ^ 32) (h3 : a3 < 2 ^ 32) :
    v.lane e 4 0 = a0 ∧ v.lane e 4 1 = a1 ∧ v.lane e 4 2 = a2 ∧ v.lane e 4 3 = a3 := by
  obtain ⟨p0, p1, p2, p3⟩ := peek_parts4 _ _ _ _ (length_encode e 4 a0) (length_encode e 4 a1)
    (length_encode e 4 a2) (length_encode e 4 a3)
  unfold simd128i_t.lane
  rw [h, p0, p1, p2, p3]
  exact ⟨decode_encode32 e a0 h0, decode_encode32 e a1 h1, decode_encode32 e a2 h2,
    decode_encode32 e a3 h3⟩

theorem lane8_of_parts (e : Endian) (v : simd128i_t) (a0 a1 : Nat)
    (h : v.bytes = encode e 8 a0 ++ encode e 8 a1) (h0 : a0 < 2 ^ 64) (h1 : a1 < 2 ^ 64) :
    v.lane e 8 0 = a0 ∧ v.lane e 8 1 = a1 := by
  obtain ⟨p0, p1⟩ := peek_parts2 _ _ (length_encode e 8 a0) (length_encode e 8 a1)
  unfold simd128i_t.lane
  rw [h, p0, p1]
  exact ⟨decode_encode64 e a0 h0, decode_encode64 e a1 h1⟩

theorem byte_of_lane (lane : Int) (k : Nat) (hk : k < 4) :
    ((leBytes 4 (toU32 lane))[k]?).map Fin.val
      = some (Int.land (lane >>> (8 * k)) 255).toNat := by
  rw [int_land_255, Int.shiftRight_eq_div_pow]
  unfold toU32
  match k, hk with
  | 0, _ => simp [leBytes]; omega
  | 1, _ => simp [leBytes]; omega
  | 2, _ => simp [leBytes]; omega
  | 3, _ => simp [leBytes]; omega

theorem set_epi32_peek (e : Endian) (w z y x : Int) (i : Nat) (hi : i < 4) :
    peek (simd.set_epi32 e w z y x).bytes (4 * i) 4
      = encode e 4 (toU32 (simd.set_epi32_arg w z y x i)) := by
  obtain ⟨p0, p1, p2, p3⟩ := peek_parts4 _ _ _ _ (length_encode e 4 (toU32 x))
    (length_encode e 4 (toU32 y)) (length_encode e 4 (toU32 z)) (length_encode e 4 (toU32 w))
  rw [set_epi32_bytes]
  match i, hi with
  | 0, _ => exact p0
  | 1, _ => exact p1
  | 2, _ => exact p2
  | 3, _ => exact p3

theorem isInt32_arg (w z y x : Int) (hw : isInt32 w) (hz : isInt32 z) (hy : isInt32 y)
    (hx : isInt32 x) (i : Nat) : isInt32 (simd.set_epi32_arg w z y x i) := by
  unfold simd.set_epi32_arg
  split <;> assumption

theorem toU64_toI64 (a : Nat) (h : a < 2 ^ 64) : toU64 (toI64 a) = a := by
  unfold toU64 toI64
  split <;> omega

theorem shift_or_eq (hi lo : Nat) (h : lo < 2 ^ 32) : (hi <<< 32) ||| lo = lo + 2 ^ 32 * hi := by
  rw [Nat.shiftLeft_eq, Nat.mul_comm hi (2 ^ 32), ← Nat.mul_add_lt_is_or h, Nat.add_comm]

theorem peek_halves (l : List Byte) (h : l.length = 16) : peek l (8 * 0) 8 ++ peek l (8 * 1) 8 = l := by
  have h2 : (l.drop 8).length = 8 := by simp; omega
  show List.take 8 (List.drop 0 l) ++ List.take 8 (List.drop 8 l) = l
  rw [List.drop_zero, List.take_of_length_le (Nat.le_of_eq h2), List.take_append_drop]

theorem setzero_ps_bytes (e : Endian) : (simd.setzero_ps e).bytes = List.replicate 16 0 := by
  cases e <;> rfl

theorem set1_epi32_data (e : Endian) (v : Int) :
    (simd.set1_epi32 e v).lane e 8 0 = toU32 v + 2 ^ 32 * toU32 v ∧
      (simd.set1_epi32 e v).lane e 8 1 = toU32 v + 2 ^ 32 * toU32 v := by
  have hu := toU32_lt v
  have hd := doubled_eq (toU32 v) hu
  have hb : (simd.set1_epi32 e v).bytes =
      encode e 8 (toU32 v + 2 ^ 32 * toU32 v) ++ encode e 8 (toU32 v + 2 ^ 32 * toU32 v) := by
    show encode e 8 _ ++ encode e 8 _ = _
    simp only [hd]
  exact lane8_of_parts e _ _ _ hb (by omega) (by omega)

theorem set_epi32_data_little (w z y x : Int) :
    (simd.set_epi32 Endian.little w z y x).lane Endian.little 8 0
        = toU32 x + 2 ^ 32 * toU32 y ∧
      (simd.set_epi32 Endian.little w z y x).lane Endian.little 8 1
        = toU32 z + 2 ^ 32 * toU32 w := by
  have hx := toU32_lt x
  have hy := toU32_lt y
  have hz := toU32_lt z
  have hw := toU32_lt w
  have h0 := encode_halves Endian.little (toU32 x) (toU32 y) hx
  have h1 := encode_halves Endian.little (toU32 z) (toU32 w) hz
  simp only at h0 h1
  have hb : (simd.set_epi32 Endian.little w z y x).bytes =
      encode Endian.little 8 (toU32 x + 2 ^ 32 * toU32 y)
        ++ encode Endian.little 8 (toU32 z + 2 ^ 32 * toU32 w) := by
    rw [set_epi32_bytes, h0, h1]
    simp only [List.append_assoc]
  exact lane8_of_parts Endian.little _ _ _ hb (by omega) (by omega)

theorem set_epi32_data_big (w z y x : Int) :
    (simd.set_epi32 Endian.big w z y x).lane Endian.big 8 0
        = toU32 y + 2 ^ 32 * toU32 x ∧
      (simd.set_epi32 Endian.big w z y x).lane Endian.big 8 1
        = toU32 w + 2 ^ 32 * toU32 z := by
  have hx := toU32_lt x
  have hy := toU32_lt y
  have hz := toU32_lt z
  have hw := toU32_lt w
  have h0 := encode_halves Endian.big (toU32 y) (toU32 x) hy
  have h1 := encode_halves Endian.big (toU32 w) (toU32 z) hw
  simp only at h0 h1
  have hb : (simd.set_epi32 Endian.big w z y x).bytes =
      encode Endian.big 8 (toU32 y + 2 ^ 32 * toU32 x)
        ++ encode Endian.big 8 (toU32 w + 2 ^ 32 * toU32 z) := by
    rw [set_epi32_bytes, h0, h1]
    simp only [List.append_assoc]
  exact lane8_of_parts Endian.big _ _ _ hb (by omega) (by omega)

theorem extract_epi64_parity (e : Endian) (value : simd128i_t) (index : Int) :
    simd.extract_epi64 e value index
      = if index % 2 = 0 then value.data e 0 else value.data e 1 := by
  unfold simd.extract_epi64
  rcases land_one_cases index with ⟨h1, h2⟩ | ⟨h1, h2⟩
  · rw [h1, if_pos h2]
  · rw [h1, if_neg (by omega)]

/-! ## Claims -/

/-- C1 (round trip through memory): for every memory image and every source buffer `b` and
destination `p` with 16 accessible bytes each, `store_128i(p, load_128i(b))` completes and
leaves at `p` exactly the 16 bytes that buffer `b` held; when the two ranges are disjoint or
the same, buffer `b` is untouched, so the bytes at `p` and at `b` compare equal afterwards
(`memcmp(p, b, 16) == 0`). -/
theorem C1_round_trip (e : Endian) (mem : Memory) (b p : Nat)
    (hb : b + 16 ≤ mem.length) (hp : p + 16 ≤ mem.length) :
    ∃ v mem1, simd.load_128i e mem b = some v ∧ simd.store_128i mem p v = some mem1 ∧
      mem1.length = mem.length ∧
      peek mem1 p 16 = peek mem b 16 ∧
      ((p + 16 ≤ b ∨ b + 16 ≤ p ∨ p = b) → peek mem1 p 16 = peek mem1 b 16) := by
  obtain ⟨v, hv, hbytes⟩ := load_128i_bytes e mem b hb
  have hlen : p + v.bytes.length ≤ mem.length := by rw [v.size_eq]; exact hp
  have hsame : peek (poke mem p v.bytes) p 16 = v.bytes := by
    have h := peek_poke_same mem p v.bytes hlen
    rw [v.size_eq] at h
    exact h
  refine ⟨v, poke mem p v.bytes, hv, store_128i_eq mem p v hp, length_poke _ _ _ hlen, ?_, ?_⟩
  · rw [hsame, hbytes]
  · intro hd
    by_cases hpb : p = b
    · rw [hpb]
    · have hdis : peek (poke mem p v.bytes) b 16 = peek mem b 16 := by
        apply peek_poke_disjoint mem p v.bytes b 16 hlen
        rw [v.size_eq]
        omega
      rw [hsame, hdis, hbytes]

/-- Witness for C1: an 18-byte memory, source buffer at address 0 and an unaligned,
overlapping destination at address 1. -/
theorem C1_round_trip_witness :
    ∃ v mem1, simd.load_128i Endian.little
        [0, 1, 2, 3, 4, 5, 6, 7, 8, 9, 10, 11, 12, 13, 14, 15, 16, 17] 0 = some v ∧
      simd.store_128i [0, 1, 2, 3, 4, 5, 6, 7, 8, 9, 10, 11, 12, 13, 14, 15, 16, 17] 1 v
        = some mem1 ∧
      mem1.length = [0, 1, 2, 3, 4, 5, 6, 7, 8, 9, 10, 11, 12, 13, 14, 15, 16, (17 : Byte)].length ∧
      peek mem1 1 16 = peek [0, 1, 2, 3, 4, 5, 6, 7, 8, 9, 10, 11, 12, 13, 14, 15, 16, 17] 0 16 ∧
      ((1 + 16 ≤ 0 ∨ 0 + 16 ≤ 1 ∨ 1 = 0) → peek mem1 1 16 = peek mem1 0 16) :=
  C1_round_trip Endian.little
    [0, 1, 2, 3, 4, 5, 6, 7, 8, 9, 10, 11, 12, 13, 14, 15, 16, 17] 0 1 (by decide) (by decide)

/-- C2, the claim as stated fails: the fallback is compiled for any target that is not x86,
and on a big-endian one each of the four operations that read or write an integer lane
differs from the x86 reference.  `set_epi32(4, 3, 2, 1)` holds the bytes
`00 00 00 01 00 00 00 02 ...` whereas the register of `_mm_set_epi32(4, 3, 2, 1)` occupies
`01 00 00 00 02 00 00 00 ...` in memory; `set1_epi32(1)` and `set_epi64x(0, 1)` differ from
their registers in the same way; and `extract_epi64` of the value whose first byte is 1 and
whose other bytes are 0 is `2 ^ 56`, not 1. -/
theorem C2_cross_mode_fails_big_endian :
    ((simd.set_epi32 Endian.big 4 3 2 1).bytes
        = [0, 0, 0, 1, 0, 0, 0, 2, 0, 0, 0, 3, 0, 0, 0, 4] ∧
      x86.image (x86._mm_set_epi32 4 3 2 1)
        = [1, 0, 0, 0, 2, 0, 0, 0, 3, 0, 0, 0, 4, 0, 0, 0] ∧
      (simd.set_epi32 Endian.big 4 3 2 1).bytes ≠ x86.image (x86._mm_set_epi32 4 3 2 1)) ∧
    (simd.set1_epi32 Endian.big 1).bytes ≠ x86.image (x86._mm_set1_epi32 1) ∧
    (simd.set_epi64x Endian.big 0 1).bytes ≠ x86.image (x86._mm_set_epi64x 0 1) ∧
    (simd.extract_epi64 Endian.big ⟨[1, 0, 0, 0, 0, 0, 0, 0, 0, 0, 0, 0, 0, 0, 0, 0], rfl⟩ 0
        = 72057594037927936 ∧
      x86._mm_extract_epi64 (leVal [1, 0, 0, 0, 0, 0, 0, 0, 0, 0, 0, 0, 0, 0, 0, 0]) 0 = 1) := by
  decide

/-- C2 as amended (cross-mode equivalence): for every input, `load_128i`, `store_128i`,
`setzero_128i` and `setzero_ps` of the fallback branch give the result of the reference
semantics of their x86 intrinsics on every target (the same 16 bytes, and for `store_128i`
the same memory or the same undefined access); `set1_epi32`, `extract_epi64`, `set_epi32` and
`set_epi64x` do so on a little-endian target (the same 16 bytes, and for `extract_epi64` the
same 64-bit number). -/
theorem C2_cross_mode_equivalence :
    (∀ (e : Endian) (mem : Memory) (p : Nat),
        (simd.load_128i e mem p).map simd128i_t.bytes
          = (x86._mm_loadu_si128 mem p).map x86.image) ∧
    (∀ (mem : Memory) (p : Nat) (v : simd128i_t),
        simd.store_128i mem p v = x86._mm_storeu_si128 mem p (leVal v.bytes)) ∧
    (∀ e : Endian, (simd.setzero_128i e).bytes = x86.image x86._mm_setzero_si128) ∧
    (∀ e : Endian, (simd.setzero_ps e).bytes = x86.image x86._mm_setzero_ps) ∧
    (∀ v : Int, (simd.set1_epi32 Endian.little v).bytes = x86.image (x86._mm_set1_epi32 v)) ∧
    (∀ (v : simd128i_t) (index : Int),
        simd.extract_epi64 Endian.little v index
          = x86._mm_extract_epi64 (leVal v.bytes) index) ∧
    (∀ w z y x : Int,
        (simd.set_epi32 Endian.little w z y x).bytes
          = x86.image (x86._mm_set_epi32 w z y x)) ∧
    (∀ hi lo : Int,
        (simd.set_epi64x Endian.little hi lo).bytes
          = x86.image (x86._mm_set_epi64x hi lo)) := by
  refine ⟨?_, ?_, ?_, ?_, ?_, ?_, ?_, ?_⟩
  · intro e mem p
    by_cases h : p + 16 ≤ mem.length
    · obtain ⟨v, hv, hb⟩ := load_128i_bytes e mem p h
      have hl := leBytes_leVal (peek mem p 16)
      rw [length_peek mem p 16 h] at hl
      rw [hv]
      unfold x86._mm_loadu_si128 x86.image
      rw [if_pos h]
      show some v.bytes = some (leBytes 16 (leVal (peek mem p 16)))
      rw [hl, hb]
    · rw [load_128i_none _ _ _ h]
      unfold x86._mm_loadu_si128
      rw [if_neg h]
      rfl
  · intro mem p v
    by_cases h : p + 16 ≤ mem.length
    · have hl := leBytes_leVal v.bytes
      rw [v.size_eq] at hl
      rw [store_128i_eq mem p v h]
      unfold x86._mm_storeu_si128 x86.image poke
      rw [if_pos h, hl, v.size_eq]
    · rw [store_128i_none _ _ _ h]
      unfold x86._mm_storeu_si128
      rw [if_neg h]
  · intro e
    cases e <;> decide
  · intro e
    cases e <;> decide
  · intro v
    have hu := toU32_lt v
    have hr : x86._mm_set1_epi32 v =
        toU32 v + toU32 v * 2 ^ 32 + toU32 v * 2 ^ 64 + toU32 v * 2 ^ 96 := by
      unfold x86._mm_set1_epi32
      rw [bits32_eq]
      simp [List.range, List.range.loop]
    rw [set1_epi32_bytes, hr]
    unfold x86.image
    rw [leBytes16_lanes _ _ _ _ hu hu hu]
    rfl
  · intro v index
    rw [extract_epi64_little]
    rfl
  · intro w z y x
    rw [set_epi32_bytes]
    unfold x86.image x86._mm_set_epi32
    rw [bits32_eq, bits32_eq, bits32_eq, bits32_eq,
      leBytes16_lanes _ _ _ _ (toU32_lt x) (toU32_lt y) (toU32_lt z)]
    rfl
  · intro hi lo
    rw [set_epi64x_bytes]
    unfold x86.image x86._mm_set_epi64x
    rw [bits64_eq, bits64_eq, leBytes16_halves _ _ (toU64_lt lo)]
    rfl

/-- C3 (broadcast correctness): for every `int32_t` value `v`, on either byte order, each
of the four 32-bit lanes of `set1_epi32(v)` reads back as `v` through the signed view
`m128i_i32` and as `v` reduced modulo `2 ^ 32` through the unsigned view `m128i_u32`. -/
theorem C3_broadcast_lanes (e : Endian) (v : Int) (hv : isInt32 v) (i : Nat) (hi : i < 4) :
    (simd.set1_epi32 e v).m128i_i32 e i = v ∧
      (simd.set1_epi32 e v).m128i_u32 e i = toU32 v ∧
      ((simd.set1_epi32 e v).m128i_u32 e i : Int) = v % 2 ^ 32 := by
  have hu := toU32_lt v
  obtain ⟨l0, l1, l2, l3⟩ :=
    lane4_of_parts e (simd.set1_epi32 e v) _ _ _ _ (set1_epi32_bytes e v) hu hu hu hu
  have hl : (simd.set1_epi32 e v).lane e 4 i = toU32 v := by
    match i, hi with
    | 0, _ => exact l0
    | 1, _ => exact l1
    | 2, _ => exact l2
    | 3, _ => exact l3
  unfold simd128i_t.m128i_i32 simd128i_t.m128i_u32
  rw [hl]
  refine ⟨toI32_toU32 v hv, rfl, ?_⟩
  unfold toU32
  omega

/-- Witness for C3: `set1_epi32(0x12345678)` on a little-endian target, lane 3. -/
theorem C3_broadcast_lanes_witness :
    (simd.set1_epi32 Endian.little 0x12345678).m128i_i32 Endian.little 3 = 0x12345678 ∧
      (simd.set1_epi32 Endian.little 0x12345678).m128i_u32 Endian.little 3
        = toU32 0x12345678 ∧
      ((simd.set1_epi32 Endian.little 0x12345678).m128i_u32 Endian.little 3 : Int)
        = 0x12345678 % 2 ^ 32 :=
  C3_broadcast_lanes Endian.little 0x12345678 (by decide) 3 (by decide)

/-- C4 (lane assembly order): for all `int32_t` values `w`, `z`, `y`, `x`, on either byte
order, `set_epi32(w, z, y, x)` read back through `m128i_i32` in index order has lane 0 = `x`,
lane 1 = `y`, lane 2 = `z` and lane 3 = `w`. -/
theorem C4_lane_assembly_order (e : Endian) (w z y x : Int)
    (hw : isInt32 w) (hz : isInt32 z) (hy : isInt32 y) (hx : isInt32 x) :
    (simd.set_epi32 e w z y x).m128i_i32 e 0 = x ∧
      (simd.set_epi32 e w z y x).m128i_i32 e 1 = y ∧
      (simd.set_epi32 e w z y x).m128i_i32 e 2 = z ∧
      (simd.set_epi32 e w z y x).m128i_i32 e 3 = w := by
  obtain ⟨l0, l1, l2, l3⟩ :=
    lane4_of_parts e (simd.set_epi32 e w z y x) _ _ _ _ (set_epi32_bytes e w z y x)
      (toU32_lt x) (toU32_lt y) (toU32_lt z) (toU32_lt w)
  unfold simd128i_t.m128i_i32
  rw [l0, l1, l2, l3]
  exact ⟨toI32_toU32 x hx, toI32_toU32 y hy, toI32_toU32 z hz, toI32_toU32 w hw⟩

/-- Witness for C4: `set_epi32(4, 3, 2, 1)` on a big-endian target. -/
theorem C4_lane_assembly_order_witness :
    (simd.set_epi32 Endian.big 4 3 2 1).m128i_i32 Endian.big 0 = 1 ∧
      (simd.set_epi32 Endian.big 4 3 2 1).m128i_i32 Endian.big 1 = 2 ∧
      (simd.set_epi32 Endian.big 4 3 2 1).m128i_i32 Endian.big 2 = 3 ∧
      (simd.set_epi32 Endian.big 4 3 2 1).m128i_i32 Endian.big 3 = 4 :=
  C4_lane_assembly_order Endian.big 4 3 2 1 (by decide) (by decide) (by decide) (by decide)

/-- C5 (64-bit split/join): for all `int64_t` values `hi` and `lo`, on either byte order,
`extract_epi64(set_epi64x(hi, lo), 0)` is `lo` and `extract_epi64(set_epi64x(hi, lo), 1)` is
`hi`, each reinterpreted as `uint64_t` (the value modulo `2 ^ 64`). -/
theorem C5_split_join (e : Endian) (hi lo : Int) :
    (simd.extract_epi64 e (simd.set_epi64x e hi lo) 0 : Int) = lo % 2 ^ 64 ∧
      (simd.extract_epi64 e (simd.set_epi64x e hi lo) 1 : Int) = hi % 2 ^ 64 := by
  obtain ⟨l0, l1⟩ := lane8_of_parts e (simd.set_epi64x e hi lo) _ _ (set_epi64x_bytes e hi lo)
    (toU64_lt lo) (toU64_lt hi)
  have e0 : simd.extract_epi64 e (simd.set_epi64x e hi lo) 0 = toU64 lo := l0
  have e1 : simd.extract_epi64 e (simd.set_epi64x e hi lo) 1 = toU64 hi := l1
  rw [e0, e1]
  unfold toU64
  omega

/-- The example of the split/join property: `hi` is the `int64_t` with bit pattern
`0xAABBCCDDEEFF0011`, `lo` is `0x0011223344556677`; the extracted lanes are those patterns. -/
theorem split_join_example :
    simd.extract_epi64 Endian.little
        (simd.set_epi64x Endian.little (0xAABBCCDDEEFF0011 - 2 ^ 64) 0x0011223344556677) 0
          = 0x0011223344556677 ∧
      simd.extract_epi64 Endian.little
        (simd.set_epi64x Endian.little (0xAABBCCDDEEFF0011 - 2 ^ 64) 0x0011223344556677) 1
          = 0xAABBCCDDEEFF0011 := by
  decide

/-- C6 (index wrapping): for every `simd128i_t` value, on either byte order,
`extract_epi64(value, 2)` and `extract_epi64(value, 0)` return the same result. -/
theorem C6_index_wrapping (e : Endian) (value : simd128i_t) :
    simd.extract_epi64 e value 2 = simd.extract_epi64 e value 0 := by
  unfold simd.extract_epi64
  rw [int_land_one, int_land_one]
  rfl

/-- C7 (zero identity for the integer type): on either byte order `setzero_128i()` is the
all-zero 16-byte pattern: both 64-bit lanes and all four 32-bit lanes are 0 under every view,
it equals the default-constructed `simd128i_t`, storing it writes 16 zero bytes, and
`load_128i` of any 16 zero bytes equals it. -/
theorem C7_zero_identity (e : Endian) (mem : Memory) (p : Nat) (hp : p + 16 ≤ mem.length) :
    (simd.setzero_128i e).bytes = List.replicate 16 0 ∧
      (∀ i, i < 2 → (simd.setzero_128i e).data e i = 0 ∧
        (simd.setzero_128i e).m128i_u64 e i = 0 ∧ (simd.setzero_128i e).m128i_i64 e i = 0) ∧
      (∀ i, i < 4 → (simd.setzero_128i e).m128i_u32 e i = 0 ∧
        (simd.setzero_128i e).m128i_i32 e i = 0) ∧
      simd.setzero_128i e = simd128i_t.ctor0 e ∧
      (∃ mem1, simd.store_128i mem p (simd.setzero_128i e) = some mem1 ∧
        peek mem1 p 16 = List.replicate 16 0) ∧
      (peek mem p 16 = List.replicate 16 0 →
        simd.load_128i e mem p = some (simd.setzero_128i e)) := by
  have hz : (simd.setzero_128i e).bytes = List.replicate 16 0 := by cases e <;> rfl
  refine ⟨hz, ?_, ?_, ?_, ?_, ?_⟩
  · cases e <;> decide
  · cases e <;> decide
  · cases e <;> rfl
  · have hlen : p + (simd.setzero_128i e).bytes.length ≤ mem.length := by
      rw [(simd.setzero_128i e).size_eq]; exact hp
    have h := peek_poke_same mem p (simd.setzero_128i e).bytes hlen
    rw [(simd.setzero_128i e).size_eq] at h
    exact ⟨_, store_128i_eq mem p _ hp, by rw [h, hz]⟩
  · intro hzero
    obtain ⟨v, hv, hb⟩ := load_128i_bytes e mem p hp
    rw [hv]
    congr 1
    apply simd128i_ext
    rw [hb, hzero, hz]

/-- Witness for C7: a 17-byte memory holding 16 zero bytes at the unaligned address 1. -/
theorem C7_zero_identity_witness :
    (peek [7, 0, 0, 0, 0, 0, 0, 0, 0, 0, 0, 0, 0, 0, 0, 0, 0] 1 16 = List.replicate 16 0) ∧
      simd.load_128i Endian.big [7, 0, 0, 0, 0, 0, 0, 0, 0, 0, 0, 0, 0, 0, 0, 0, 0] 1
        = some (simd.setzero_128i Endian.big) :=
  ⟨by decide,
    (C7_zero_identity Endian.big [7, 0, 0, 0, 0, 0, 0, 0, 0, 0, 0, 0, 0, 0, 0, 0, 0] 1
      (by decide)).2.2.2.2.2 (by decide)⟩

/-- C8 (unaligned tolerance): for every memory image and every address `a` with 16 accessible
bytes, whatever `a` is modulo 16, `load_128i(a)` completes and returns exactly the bytes at
`a .. a+15`, `store_128i(a, v)` completes and leaves exactly the 16 bytes of `v` at
`a .. a+15`, and the loaded value is the same for any other memory and address holding the
same 16 bytes. -/
theorem C8_unaligned_tolerance (e : Endian) (mem : Memory) (a : Nat) (v : simd128i_t)
    (ha : a + 16 ≤ mem.length) :
    (∃ r, simd.load_128i e mem a = some r ∧ r.bytes = peek mem a 16) ∧
      (∃ mem1, simd.store_128i mem a v = some mem1 ∧ peek mem1 a 16 = v.bytes) ∧
      (∀ (mem2 : Memory) (a2 : Nat), a2 + 16 ≤ mem2.length →
        peek mem2 a2 16 = peek mem a 16 →
          simd.load_128i e mem2 a2 = simd.load_128i e mem a) := by
  refine ⟨load_128i_bytes e mem a ha, ?_, ?_⟩
  · have hlen : a + v.bytes.length ≤ mem.length := by rw [v.size_eq]; exact ha
    have h := peek_poke_same mem a v.bytes hlen
    rw [v.size_eq] at h
    exact ⟨_, store_128i_eq mem a v ha, h⟩
  · intro mem2 a2 ha2 hsame
    obtain ⟨r, hr, hrb⟩ := load_128i_bytes e mem a ha
    obtain ⟨r2, hr2, hrb2⟩ := load_128i_bytes e mem2 a2 ha2
    rw [hr, hr2]
    congr 1
    apply simd128i_ext
    rw [hrb, hrb2, hsame]

/-- Witness for C8: address 3 (three bytes past a 16-byte boundary) of a 20-byte memory. -/
theorem C8_unaligned_tolerance_witness :
    (∃ r, simd.load_128i Endian.little
        [0, 1, 2, 3, 4, 5, 6, 7, 8, 9, 10, 11, 12, 13, 14, 15, 16, 17, 18, 19] 3 = some r ∧
        r.bytes = peek [0, 1, 2, 3, 4, 5, 6, 7, 8, 9, 10, 11, 12, 13, 14, 15, 16, 17, 18, 19]
          3 16) ∧
      (∃ mem1, simd.store_128i
        [0, 1, 2, 3, 4, 5, 6, 7, 8, 9, 10, 11, 12, 13, 14, 15, 16, 17, 18, 19] 3
          (simd.set_epi32 Endian.little 4 3 2 1) = some mem1 ∧
        peek mem1 3 16 = (simd.set_epi32 Endian.little 4 3 2 1).bytes) ∧
      (∀ (mem2 : Memory) (a2 : Nat), a2 + 16 ≤ mem2.length →
        peek mem2 a2 16
          = peek [0, 1, 2, 3, 4, 5, 6, 7, 8, 9, 10, 11, 12, 13, 14, 15, 16, 17, 18, 19] 3 16 →
          simd.load_128i Endian.little mem2 a2 = simd.load_128i Endian.little
            [0, 1, 2, 3, 4, 5, 6, 7, 8, 9, 10, 11, 12, 13, 14, 15, 16, 17, 18, 19] 3) :=
  C8_unaligned_tolerance Endian.little
    [0, 1, 2, 3, 4, 5, 6, 7, 8, 9, 10, 11, 12, 13, 14, 15, 16, 17, 18, 19] 3
    (simd.set_epi32 Endian.little 4 3 2 1) (by decide)

/-- C9 (store frame): for every memory image, address `p` with 16 accessible bytes and
value `v`, `store_128i(p, v)` completes, keeps the size of the memory and leaves every byte
outside `p .. p+15` unchanged; `load_128i(p)` completes and leaves the whole memory as it
was. -/
theorem C9_store_frame (e : Endian) (mem : Memory) (p : Nat) (v : simd128i_t)
    (hp : p + 16 ≤ mem.length) :
    (∃ mem1, simd.store_128i mem p v = some mem1 ∧ mem1.length = mem.length ∧
        ∀ k, (k < p ∨ p + 16 ≤ k) → mem1[k]? = mem[k]?) ∧
      (∃ r, simd.load_128i_step e mem p = some (r, mem)) := by
  have hlen : p + v.bytes.length ≤ mem.length := by rw [v.size_eq]; exact hp
  refine ⟨⟨_, store_128i_eq mem p v hp, length_poke _ _ _ hlen, ?_⟩, ?_⟩
  · intro k hk
    rw [getElem?_poke _ _ _ _ hlen, v.size_eq]
    rcases hk with hk | hk
    · rw [if_pos hk]
    · rw [if_neg (by omega), if_neg (by omega)]
  · obtain ⟨r, hr, _⟩ := load_128i_bytes e mem p hp
    exact ⟨r, by unfold simd.load_128i_step; rw [hr]; rfl⟩

/-- Witness for C9: a store at address 1 of an 18-byte memory. -/
theorem C9_store_frame_witness :
    (∃ mem1, simd.store_128i
        [0, 1, 2, 3, 4, 5, 6, 7, 8, 9, 10, 11, 12, 13, 14, 15, 16, 17] 1
          (simd.set_epi32 Endian.little 4 3 2 1) = some mem1 ∧
        mem1.length
          = [0, 1, 2, 3, 4, 5, 6, 7, 8, 9, 10, 11, 12, 13, 14, 15, 16, (17 : Byte)].length ∧
        ∀ k, (k < 1 ∨ 1 + 16 ≤ k) → mem1[k]?
          = [0, 1, 2, 3, 4, 5, 6, 7, 8, 9, 10, 11, 12, 13, 14, 15, 16, (17 : Byte)][k]?) ∧
      (∃ r, simd.load_128i_step Endian.little
        [0, 1, 2, 3, 4, 5, 6, 7, 8, 9, 10, 11, 12, 13, 14, 15, 16, 17] 1
          = some (r, [0, 1, 2, 3, 4, 5, 6, 7, 8, 9, 10, 11, 12, 13, 14, 15, 16, 17])) :=
  C9_store_frame Endian.little [0, 1, 2, 3, 4, 5, 6, 7, 8, 9, 10, 11, 12, 13, 14, 15, 16, 17] 1
    (simd.set_epi32 Endian.little 4 3 2 1) (by decide)

/-- C10 (lane/byte-offset consistency of `set_epi32`): for all `int32_t` values `w`, `z`,
`y`, `x` and every address `p` with 16 accessible bytes, after
`store_128i(p, set_epi32(w, z, y, x))` the 4 bytes at offset `4 * i` from `p` are the object
representation of lane `i` (`x`, `y`, `z`, `w` for `i` = 0, 1, 2, 3), so an `int32_t` read
there gives that lane; on a little-endian target byte `p + 4 * i + k` is
`(lane_i >> 8 * k) & 0xFF`. -/
theorem C10_lane_byte_offsets (e : Endian) (mem : Memory) (p : Nat) (w z y x : Int)
    (hp : p + 16 ≤ mem.length)
    (hw : isInt32 w) (hz : isInt32 z) (hy : isInt32 y) (hx : isInt32 x) :
    ∃ mem1, simd.store_128i mem p (simd.set_epi32 e w z y x) = some mem1 ∧
      ∀ i, i < 4 →
        peek mem1 (p + 4 * i) 4 = encode e 4 (toU32 (simd.set_epi32_arg w z y x i)) ∧
        toI32 (decode e (peek mem1 (p + 4 * i) 4)) = simd.set_epi32_arg w z y x i ∧
        (e = Endian.little → ∀ k, k < 4 →
          (mem1[p + 4 * i + k]?).map Fin.val
            = some (Int.land (simd.set_epi32_arg w z y x i >>> (8 * k)) 255).toNat) := by
  have hsz := (simd.set_epi32 e w z y x).size_eq
  have hlen : p + (simd.set_epi32 e w z y x).bytes.length ≤ mem.length := by
    rw [hsz]; exact hp
  have hsame := peek_poke_same mem p (simd.set_epi32 e w z y x).bytes hlen
  rw [hsz] at hsame
  refine ⟨_, store_128i_eq mem p _ hp, ?_⟩
  intro i hi
  have hpk : peek (poke mem p (simd.set_epi32 e w z y x).bytes) (p + 4 * i) 4
      = encode e 4 (toU32 (simd.set_epi32_arg w z y x i)) := by
    rw [← peek_peek _ p 16 (4 * i) 4 (by omega), hsame]
    exact set_epi32_peek e w z y x i hi
  refine ⟨hpk, ?_, ?_⟩
  · rw [hpk, decode_encode32 e _ (toU32_lt _)]
    exact toI32_toU32 _ (isInt32_arg w z y x hw hz hy hx i)
  · intro he k hk
    have hb := getElem?_peek (poke mem p (simd.set_epi32 e w z y x).bytes) (p + 4 * i) 4 k
    rw [if_pos hk, hpk] at hb
    rw [← hb, he]
    exact byte_of_lane _ k hk

/-- Witness for C10: `set_epi32(-4, 3, -2, 1)` stored at address 1 of an 18-byte memory on a
little-endian target. -/
theorem C10_lane_byte_offsets_witness :
    ∃ mem1, simd.store_128i [0, 1, 2, 3, 4, 5, 6, 7, 8, 9, 10, 11, 12, 13, 14, 15, 16, 17] 1
        (simd.set_epi32 Endian.little (-4) 3 (-2) 1) = some mem1 ∧
      ∀ i, i < 4 →
        peek mem1 (1 + 4 * i) 4
          = encode Endian.little 4 (toU32 (simd.set_epi32_arg (-4) 3 (-2) 1 i)) ∧
        toI32 (decode Endian.little (peek mem1 (1 + 4 * i) 4))
          = simd.set_epi32_arg (-4) 3 (-2) 1 i ∧
        (Endian.little = Endian.little → ∀ k, k < 4 →
          (mem1[1 + 4 * i + k]?).map Fin.val
            = some (Int.land (simd.set_epi32_arg (-4) 3 (-2) 1 i >>> (8 * k)) 255).toNat) :=
  C10_lane_byte_offsets Endian.little
    [0, 1, 2, 3, 4, 5, 6, 7, 8, 9, 10, 11, 12, 13, 14, 15, 16, 17] 1 (-4) 3 (-2) 1
    (by decide) (by decide) (by decide) (by decide) (by decide)

/-- C11 (zero identity for the float type): on either byte order `setzero_ps()` equals the
default-constructed `simd128f_t`, each of its four lanes holds positive zero (sign bit clear,
exponent 0, fraction 0), whose 32-bit pattern is all zero, and the value is 16 zero bytes. -/
theorem C11_zero_identity_float (e : Endian) (i : Nat) (hi : i < 4) :
    simd.setzero_ps e = simd128f_t.ctor0 e ∧
      (simd.setzero_ps e).data e i = f32_bits false 0 0 ∧
      (simd.setzero_ps e).data e i = 0 ∧
      (simd.setzero_ps e).bytes = List.replicate 16 0 := by
  refine ⟨rfl, ?_, ?_, setzero_ps_bytes e⟩
  · match i, hi with
    | 0, _ => cases e <;> decide
    | 1, _ => cases e <;> decide
    | 2, _ => cases e <;> decide
    | 3, _ => cases e <;> decide
  · match i, hi with
    | 0, _ => cases e <;> decide
    | 1, _ => cases e <;> decide
    | 2, _ => cases e <;> decide
    | 3, _ => cases e <;> decide

/-- Witness for C11: lane 3 on a big-endian target. -/
theorem C11_zero_identity_float_witness :
    simd.setzero_ps Endian.big = simd128f_t.ctor0 Endian.big ∧
      (simd.setzero_ps Endian.big).data Endian.big 3 = f32_bits false 0 0 ∧
      (simd.setzero_ps Endian.big).data Endian.big 3 = 0 ∧
      (simd.setzero_ps Endian.big).bytes = List.replicate 16 0 :=
  C11_zero_identity_float Endian.big 3 (by decide)

/-- C12 (lane extraction is total and in range): for every `simd128i_t` value and every
integer index, negative ones included, `index & 1` is 0 or 1, so the 8 bytes read by
`value.data[index & 1]` lie inside the 16 bytes of the value; `extract_epi64` returns 64-bit
lane 0 when the index is even and lane 1 when it is odd, a number below `2 ^ 64`. -/
theorem C12_extract_in_range (e : Endian) (value : simd128i_t) (index : Int) :
    (Int.land index 1 = 0 ∨ Int.land index 1 = 1) ∧
      (Int.land index 1).toNat < 2 ∧
      8 * (Int.land index 1).toNat + 8 ≤ value.bytes.length ∧
      simd.extract_epi64 e value index
        = (if index % 2 = 0 then value.data e 0 else value.data e 1) ∧
      simd.extract_epi64 e value index < 2 ^ 64 := by
  have hc := land_one_cases index
  have hl := int_land_one index
  refine ⟨?_, ?_, ?_, extract_epi64_parity e value index, ?_⟩
  · rw [hl]; omega
  · rw [hl]; omega
  · rw [value.size_eq, hl]; omega
  · unfold simd.extract_epi64 simd128i_t.data simd128i_t.lane
    have hlen : (peek value.bytes (8 * (Int.land index 1).toNat) 8).length = 8 :=
      length_peek _ _ _ (by rw [value.size_eq, hl]; omega)
    have hd := decode_encode e 8 (decode e (peek value.bytes (8 * (Int.land index 1).toNat) 8))
    have he := encode_decode e (peek value.bytes (8 * (Int.land index 1).toNat) 8)
    rw [hlen] at he
    rw [he] at hd
    rw [hd]
    exact Nat.lt_of_lt_of_le (Nat.mod_lt _ (by norm_num)) (by norm_num)

/-- The extreme indices of C12: `INT_MIN` is even and selects lane 0, `INT_MAX` is odd and
selects lane 1. -/
theorem extract_extreme_indices :
    simd.extract_epi64 Endian.little (simd.set_epi64x Endian.little 7 5) (-2147483648) = 5 ∧
      simd.extract_epi64 Endian.little (simd.set_epi64x Endian.little 7 5) 2147483647 = 7 ∧
      simd.extract_epi64 Endian.little (simd.set_epi64x Endian.little 7 5) (-1) = 7 := by
  refine ⟨?_, ?_, ?_⟩ <;> rw [extract_epi64_parity] <;> decide

/-- C13 (broadcast 64-bit pattern without sign leakage): for every `int32_t` value `v`,
negative ones included, every index and either byte order,
`extract_epi64(set1_epi32(v), index)` is `(u << 32) | u` with `u` the value `v` reduced modulo
`2 ^ 32`, which is `u * 0x100000001`; its upper and its lower 32 bits are both `u`. -/
theorem C13_broadcast_pattern (e : Endian) (v : Int) (index : Int) :
    simd.extract_epi64 e (simd.set1_epi32 e v) index = (toU32 v <<< 32) ||| toU32 v ∧
      simd.extract_epi64 e (simd.set1_epi32 e v) index = toU32 v * 0x100000001 ∧
      simd.extract_epi64 e (simd.set1_epi32 e v) index / 2 ^ 32 = toU32 v ∧
      simd.extract_epi64 e (simd.set1_epi32 e v) index % 2 ^ 32 = toU32 v := by
  have hu := toU32_lt v
  obtain ⟨l0, l1⟩ := set1_epi32_data e v
  have hx : simd.extract_epi64 e (simd.set1_epi32 e v) index
      = toU32 v + 2 ^ 32 * toU32 v := by
    rw [extract_epi64_parity]
    split
    · exact l0
    · exact l1
  rw [hx, shift_or_eq _ _ hu]
  refine ⟨rfl, ?_, ?_, ?_⟩ <;> omega

/-- C14 (broadcast agrees with explicit four-lane construction): for every `int32_t` value
`v` and either byte order, `set1_epi32(v)` and `set_epi32(v, v, v, v)` are the same 16
bytes. -/
theorem C14_broadcast_eq_set (e : Endian) (v : Int) :
    simd.set1_epi32 e v = simd.set_epi32 e v v v v ∧
      (simd.set1_epi32 e v).bytes = (simd.set_epi32 e v v v v).bytes := by
  have h : (simd.set1_epi32 e v).bytes = (simd.set_epi32 e v v v v).bytes := by
    rw [set1_epi32_bytes, set_epi32_bytes]
  exact ⟨simd128i_ext h, h⟩

/-- C15 (32-bit lanes seen through the 64-bit view, little-endian layout): for all `int32_t`
values `w`, `z`, `y`, `x`, on a little-endian target, `extract_epi64(set_epi32(w, z, y, x), 0)`
is `(u32(y) << 32) | u32(x)` and `extract_epi64(set_epi32(w, z, y, x), 1)` is
`(u32(w) << 32) | u32(z)`; the upper 32 bits are `u32(y)` and `u32(w)` whatever the sign of
`x` and `z`. -/
theorem C15_lanes_in_64_bit_view (w z y x : Int) :
    simd.extract_epi64 Endian.little (simd.set_epi32 Endian.little w z y x) 0
        = (toU32 y <<< 32) ||| toU32 x ∧
      simd.extract_epi64 Endian.little (simd.set_epi32 Endian.little w z y x) 1
        = (toU32 w <<< 32) ||| toU32 z ∧
      simd.extract_epi64 Endian.little (simd.set_epi32 Endian.little w z y x) 0 / 2 ^ 32
        = toU32 y ∧
      simd.extract_epi64 Endian.little (simd.set_epi32 Endian.little w z y x) 1 / 2 ^ 32
        = toU32 w := by
  have hx := toU32_lt x
  have hz := toU32_lt z
  obtain ⟨l0, l1⟩ := set_epi32_data_little w z y x
  have e0 : simd.extract_epi64 Endian.little (simd.set_epi32 Endian.little w z y x) 0
      = toU32 x + 2 ^ 32 * toU32 y := l0
  have e1 : simd.extract_epi64 Endian.little (simd.set_epi32 Endian.little w z y x) 1
      = toU32 z + 2 ^ 32 * toU32 w := l1
  rw [e0, e1, shift_or_eq _ _ hx, shift_or_eq _ _ hz]
  refine ⟨rfl, rfl, ?_, ?_⟩ <;> omega

/-- The 64-bit view of `set_epi32` on a big-endian target, for comparison with C15: the two
32-bit lanes of each half appear in the other order. -/
theorem lanes_in_64_bit_view_big (w z y x : Int) :
    simd.extract_epi64 Endian.big (simd.set_epi32 Endian.big w z y x) 0
        = (toU32 x <<< 32) ||| toU32 y ∧
      simd.extract_epi64 Endian.big (simd.set_epi32 Endian.big w z y x) 1
        = (toU32 z <<< 32) ||| toU32 w := by
  obtain ⟨l0, l1⟩ := set_epi32_data_big w z y x
  have e0 : simd.extract_epi64 Endian.big (simd.set_epi32 Endian.big w z y x) 0
      = toU32 y + 2 ^ 32 * toU32 x := l0
  have e1 : simd.extract_epi64 Endian.big (simd.set_epi32 Endian.big w z y x) 1
      = toU32 w + 2 ^ 32 * toU32 z := l1
  rw [e0, e1, shift_or_eq _ _ (toU32_lt y), shift_or_eq _ _ (toU32_lt w)]
  exact ⟨rfl, rfl⟩

/-- C16 (reverse round trip): for every `simd128i_t` value `v`, every memory image and every
address `p` with 16 accessible bytes, `store_128i(p, v)` completes and `load_128i(p)` on the
memory it leaves returns `v`, so both 64-bit lanes are those of `v`. -/
theorem C16_store_then_load (e : Endian) (mem : Memory) (p : Nat) (v : simd128i_t)
    (hp : p + 16 ≤ mem.length) :
    ∃ mem1, simd.store_128i mem p v = some mem1 ∧ simd.load_128i e mem1 p = some v ∧
      ∀ r, simd.load_128i e mem1 p = some r →
        r.data e 0 = v.data e 0 ∧ r.data e 1 = v.data e 1 := by
  have hlen : p + v.bytes.length ≤ mem.length := by rw [v.size_eq]; exact hp
  have hsame := peek_poke_same mem p v.bytes hlen
  rw [v.size_eq] at hsame
  have hp1 : p + 16 ≤ (poke mem p v.bytes).length := by
    rw [length_poke _ _ _ hlen]; exact hp
  obtain ⟨r, hr, hb⟩ := load_128i_bytes e (poke mem p v.bytes) p hp1
  have hrv : r = v := simd128i_ext (by rw [hb, hsame])
  refine ⟨_, store_128i_eq mem p v hp, by rw [hr, hrv], ?_⟩
  intro r2 hr2
  rw [hr, hrv] at hr2
  cases hr2
  exact ⟨rfl, rfl⟩

/-- Witness for C16: `set_epi32(-4, 3, -2, 1)` stored at the unaligned address 1 of an 18-byte
memory on a big-endian target and loaded back. -/
theorem C16_store_then_load_witness :
    ∃ mem1, simd.store_128i [0, 1, 2, 3, 4, 5, 6, 7, 8, 9, 10, 11, 12, 13, 14, 15, 16, 17] 1
        (simd.set_epi32 Endian.big (-4) 3 (-2) 1) = some mem1 ∧
      simd.load_128i Endian.big mem1 1 = some (simd.set_epi32 Endian.big (-4) 3 (-2) 1) ∧
      ∀ r, simd.load_128i Endian.big mem1 1 = some r →
        r.data Endian.big 0 = (simd.set_epi32 Endian.big (-4) 3 (-2) 1).data Endian.big 0 ∧
        r.data Endian.big 1 = (simd.set_epi32 Endian.big (-4) 3 (-2) 1).data Endian.big 1 :=
  C16_store_then_load Endian.big [0, 1, 2, 3, 4, 5, 6, 7, 8, 9, 10, 11, 12, 13, 14, 15, 16, 17] 1
    (simd.set_epi32 Endian.big (-4) 3 (-2) 1) (by decide)

/-- C17 (reassembly from extracted lanes): for every `simd128i_t` value `v` and either byte
order, `set_epi64x(extract_epi64(v, 1), extract_epi64(v, 0))`, the two `uint64_t` results
reinterpreted as `int64_t`, is `v`. -/
theorem C17_reassembly (e : Endian) (v : simd128i_t) :
    simd.set_epi64x e (toI64 (simd.extract_epi64 e v 1)) (toI64 (simd.extract_epi64 e v 0))
      = v := by
  have hl0 : (peek v.bytes (8 * 0) 8).length = 8 :=
    length_peek _ _ _ (by rw [v.size_eq]; omega)
  have hl1 : (peek v.bytes (8 * 1) 8).length = 8 := length_peek _ _ _ (by rw [v.size_eq])
  have e0 : simd.extract_epi64 e v 0 = decode e (peek v.bytes (8 * 0) 8) := rfl
  have e1 : simd.extract_epi64 e v 1 = decode e (peek v.bytes (8 * 1) 8) := rfl
  have c0 := encode_decode e (peek v.bytes (8 * 0) 8)
  have c1 := encode_decode e (peek v.bytes (8 * 1) 8)
  rw [hl0] at c0
  rw [hl1] at c1
  have b0 : decode e (peek v.bytes (8 * 0) 8) < 2 ^ 64 := by
    have h := decode_encode e 8 (decode e (peek v.bytes (8 * 0) 8))
    rw [c0] at h
    rw [h]
    exact Nat.lt_of_lt_of_le (Nat.mod_lt _ (by norm_num)) (by norm_num)
  have b1 : decode e (peek v.bytes (8 * 1) 8) < 2 ^ 64 := by
    have h := decode_encode e 8 (decode e (peek v.bytes (8 * 1) 8))
    rw [c1] at h
    rw [h]
    exact Nat.lt_of_lt_of_le (Nat.mod_lt _ (by norm_num)) (by norm_num)
  apply simd128i_ext
  rw [set_epi64x_bytes, e0, e1, toU64_toI64 _ b0, toU64_toI64 _ b1, c0, c1]
  exact peek_halves v.bytes v.size_eq

/-- C18 (`set_epi64x` against the two-word constructor): for all `int64_t` values `hi` and
`lo` and either byte order, `set_epi64x(hi, lo)` equals `simd128i_t(lo', hi')` with `lo'` and
`hi'` the arguments reinterpreted as `uint64_t`, low word first; `set_epi64x(0, 0)` equals
`setzero_128i()`. -/
theorem C18_set_epi64x_ctor (e : Endian) (hi lo : Int) :
    simd.set_epi64x e hi lo = simd128i_t.ctor e (toU64 lo) (toU64 hi) ∧
      simd.set_epi64x e 0 0 = simd.setzero_128i e := by
  constructor
  · apply simd128i_ext
    rw [set_epi64x_bytes, ctor_bytes]
  · apply simd128i_ext
    rw [set_epi64x_bytes]
    rfl

end PS2Recomp
